import Mathlib

/-!
Verification development for the `domafic-rs` web renderer
(`src/web_render.rs`).

The definitions below are a shallow embedding of the reconciler
(`add_node`, module `private`), the driver entry points (`run`,
`update_system`), the host-surface index checks (`WebElement::insert`,
`WebElement::move_child`), and the HTTP result dispatch
(`handle_http_result`, `JsIoImpl::http`).

Modelling conventions:
* Host handles (`__domafic_pool` indices) are natural numbers.
* Every host mutation performed through the JS bridge is recorded as a
  `HostCall` in a trace, in program order.
* `keys.rs` and `processors.rs` are not part of the source under
  verification; the key-path operations and the short-circuiting
  traversal (`process_all`) are modelled from the spec where noted.
* Rust `panic!` / `unwrap` failure is modelled with `Option` (`none` is
  the panic).
-/

namespace Domafic

/-- `VNodeValue` from web_render.rs (lines 903-907): the retained
variant/content of a node. -/
inductive VNodeValue : Type where
  | Text : String → VNodeValue
  | Tag : String → VNodeValue
deriving DecidableEq

/-- Attribute values: the spec says attribute values are booleans or
strings (`DomValue`, spec section 3). -/
inductive AttrValue : Type where
  | boolVal : Bool → AttrValue
  | strVal : String → AttrValue
deriving DecidableEq

/-- `KeyValue`: an attribute (key, value) pair. -/
abbrev KeyValue : Type := String × AttrValue

/-- A listener as the reconciler sees it: `id` models the raw trait
object pointer (`*const Listener<M>`, the handler reference), `event`
models `event_type_handled()`, and `value` models the handler's
behaviour (the message it would produce).  The reconciler in
web_render.rs compares listeners only by pointer and event name, never
by behaviour. -/
structure ListenerRef : Type where
  id : Nat
  event : String
  value : Nat
deriving DecidableEq

/-- The pointer-plus-event-name comparison used at web_render.rs lines
1004-1006 (`*old_ptr == *listener && *old_str == (**listener).event_type_handled()`)
and lines 1026-1028 (`x.1 == listener && x.2 == event_type`). -/
def lpairEq (a b : ListenerRef) : Prop := a.id = b.id ∧ a.event = b.event

instance (a b : ListenerRef) : Decidable (lpairEq a b) := by
  unfold lpairEq; infer_instance

/-- Modelled from the spec: `Keys` (keys.rs is not among the source
files under verification).  A KeyPath is an ordered sequence of keys
from the root; `Keys::new()` is the empty path.  The fixed capacity of
32 and its overflow behaviour are not needed by any claim here. -/
abbrev Keys : Type := List Nat

/-- Modelled from the spec: `Keys::push` produces a new value with the
key appended; a keyless node inherits the parent path unchanged
(web_render.rs lines 958-962). -/
def pushKey (ks : Keys) (k : Option Nat) : Keys :=
  match k with
  | some key => ks ++ [key]
  | none => ks

mutual
/-- The declarative node tree handed to the reconciler (the `DomNode`
tree produced by the renderer).  A listener entry of `none` models a
listener-traversal step that fails; the `failStep` child models a
children-traversal step that fails (the spec's traversal contract,
section 4.1, allows any step to fail). -/
inductive DomTree : Type where
  | node : VNodeValue → Option Nat → List KeyValue → List (Option ListenerRef) → DomForest → DomTree
  | failStep : DomTree
/-- An ordered sequence of sibling nodes (the children traversal). -/
inductive DomForest : Type where
  | nil : DomForest
  | cons : DomTree → DomForest → DomForest
end

/-- Concatenation of sibling sequences. -/
def DomForest.append : DomForest → DomForest → DomForest
  | .nil, ys => ys
  | .cons x xs, ys => .cons x (DomForest.append xs ys)

/-- Number of sibling steps. -/
def DomForest.length : DomForest → Nat
  | .nil => 0
  | .cons _ ts => DomForest.length ts + 1

/-- One host mutation performed through the emscripten bridge. -/
inductive HostCall : Type where
  | createElement : String → HostCall
  | createText : String → HostCall
  | insertChild : Nat → Nat → Nat → HostCall
  | moveChild : Nat → Nat → Nat → HostCall
  | removeSelf : Nat → HostCall
  | setAttribute : Nat → KeyValue → HostCall
  | removeAttribute : Nat → String → HostCall
  | attachListener : Nat → String → HostCall
  | detachListener : Nat → Nat → HostCall
deriving DecidableEq

/-- The retained tree: `VDomNode` from web_render.rs lines 908-916.
`web_element` is the host handle; `listeners` stores
(callback handle, listener) pairs mirroring
`Vec<(WebElement, *const Listener<Message>, &'static str)>` (the event
name is carried inside `ListenerRef`). -/
inductive VDomNode : Type where
  | mk : VNodeValue → Keys → Nat → List KeyValue → List (Nat × ListenerRef) → List VDomNode → VDomNode

def VDomNode.value : VDomNode → VNodeValue
  | .mk v _ _ _ _ _ => v

def VDomNode.keys : VDomNode → Keys
  | .mk _ k _ _ _ _ => k

def VDomNode.web_element : VDomNode → Nat
  | .mk _ _ w _ _ _ => w

def VDomNode.attributes : VDomNode → List KeyValue
  | .mk _ _ _ a _ _ => a

def VDomNode.listeners : VDomNode → List (Nat × ListenerRef)
  | .mk _ _ _ _ l _ => l

def VDomNode.children : VDomNode → List VDomNode
  | .mk _ _ _ _ _ c => c

/-- Reconciler bookkeeping threaded through a pass: the next free
`__domafic_pool` index and the trace of host mutations so far. -/
structure RState : Type where
  fresh : Nat
  calls : List HostCall

/-- Result of processing part of a level: state, the level
(`acc.node_level`), the cursor (`acc.node_index`), and whether the pass
failed (`Err(())` propagating through `?`).  On failure the level holds
the partial updates already applied in place. -/
structure RStep : Type where
  st : RState
  level : List VDomNode
  cursor : Nat
  failed : Bool

/-- Modelled from the spec (processors.rs is not among the source files
under verification): flattening the listener traversal into a vector
(`ListenersToVec`, web_render.rs lines 964-968 and 1166-1185), visiting
in order and aborting on the first failing step. -/
def flattenListeners : List (Option ListenerRef) → Option (List ListenerRef)
  | [] => some []
  | some l :: rest => (flattenListeners rest).map (fun ls => l :: ls)
  | none :: _ => none

/-- The match scan of web_render.rs lines 970-987: starting at
`trial_index = cursor`, return the first entry (with its index) whose
keys and value both equal the new node's. -/
def findMatchAux (keys : Keys) (value : VNodeValue) :
    List VDomNode → Nat → Option (Nat × VDomNode)
  | [], _ => none
  | v :: rest, i =>
    if v.keys = keys ∧ v.value = value then some (i, v)
    else findMatchAux keys value rest (i + 1)

def findMatch (level : List VDomNode) (cursor : Nat) (keys : Keys)
    (value : VNodeValue) : Option (Nat × VDomNode) :=
  findMatchAux keys value (level.drop cursor) cursor

/-- The listener-removal loop of web_render.rs lines 996-1020: keep an
attached listener iff some new listener has the same pointer and event
name; otherwise emit `removeEventListener` (a detach of the callback
handle) and drop the entry. -/
def removeExcessListeners (handle : Nat) (news : List ListenerRef) :
    List (Nat × ListenerRef) → List (Nat × ListenerRef) × List HostCall
  | [] => ([], [])
  | e :: rest =>
    let r := removeExcessListeners handle news rest
    if ∃ n ∈ news, lpairEq e.2 n then (e :: r.1, r.2)
    else (r.1, HostCall.detachListener handle e.1 :: r.2)

/-- The listener-addition loop of web_render.rs lines 1022-1039: attach
a new listener iff no current attachment has the same pointer and event
name; `set_listener` allocates a fresh callback pool entry. -/
def addNewListeners (handle : Nat) (st : RState)
    (cur : List (Nat × ListenerRef)) :
    List ListenerRef → RState × List (Nat × ListenerRef)
  | [] => (st, cur)
  | l :: rest =>
    if ∃ x ∈ cur, lpairEq x.2 l then addNewListeners handle st cur rest
    else
      addNewListeners handle
        ⟨st.fresh + 1, st.calls ++ [HostCall.attachListener handle l.event]⟩
        (cur ++ [(st.fresh, l)]) rest

/-- The attribute-removal loop of web_render.rs lines 1041-1061: drop a
retained attribute iff no new attribute equals it (full key+value
equality).  The host-side `remove_attribute` call at line 1048 is
commented out in the source, so no host call is emitted here. -/
def removeExcessAttributes (news : List KeyValue) :
    List KeyValue → List KeyValue
  | [] => []
  | a :: rest =>
    if a ∈ news then a :: removeExcessAttributes news rest
    else removeExcessAttributes news rest

/-- The attribute-addition loop of web_render.rs lines 1063-1069: set
and retain a new attribute iff the retained set does not already
contain it. -/
def addNewAttributes (handle : Nat) (st : RState) (cur : List KeyValue) :
    List KeyValue → RState × List KeyValue
  | [] => (st, cur)
  | a :: rest =>
    if a ∈ cur then addNewAttributes handle st cur rest
    else
      addNewAttributes handle
        ⟨st.fresh, st.calls ++ [HostCall.setAttribute handle a]⟩
        (cur ++ [a]) rest

/-- The create-branch listener loop of web_render.rs lines 1107-1119:
attach every flattened listener, no duplicate check. -/
def attachAllListeners (handle : Nat) (st : RState) :
    List ListenerRef → RState × List (Nat × ListenerRef)
  | [] => (st, [])
  | l :: rest =>
    let r := attachAllListeners handle
      ⟨st.fresh + 1, st.calls ++ [HostCall.attachListener handle l.event]⟩ rest
    (r.1, (st.fresh, l) :: r.2)

/-- The create-branch attribute loop of web_render.rs lines 1121-1125:
set and retain every declared attribute, no duplicate check. -/
def setAllAttributes (handle : Nat) (st : RState) :
    List KeyValue → RState × List KeyValue
  | [] => (st, [])
  | a :: rest =>
    let r := setAllAttributes handle
      ⟨st.fresh, st.calls ++ [HostCall.setAttribute handle a]⟩ rest
    (r.1, a :: r.2)

/-- The trailing-removal loop of web_render.rs lines 1084-1088 and
1148-1152: `while child_node_index < vnode.children.len()` pop the last
entry and call `remove_self` on its host handle.  The loop runs exactly
`length - cursor` times, so it is modelled by recursion on that fuel. -/
def removeTrailingAux (st : RState) (lvl : List VDomNode) :
    Nat → RState × List VDomNode
  | 0 => (st, lvl)
  | n + 1 =>
    match lvl.getLast? with
    | some lastNode =>
      removeTrailingAux
        ⟨st.fresh, st.calls ++ [HostCall.removeSelf lastNode.web_element]⟩
        lvl.dropLast n
    | none => (st, lvl)

def removeTrailing (st : RState) (cursor : Nat) (lvl : List VDomNode) :
    RState × List VDomNode :=
  removeTrailingAux st lvl (lvl.length - cursor)

/-- The relocation block of web_render.rs lines 1091-1096: if the
cursor differs from the matched index, `move_child(vnode_index, cursor)`
on the parent handle, then `Vec::remove(vnode_index)` followed by
`Vec::insert(cursor, ..)` on the level.  `moved` is the element stored
at `vnode_index` (the vnode just updated in place). -/
def move_matched (st : RState) (parent : Nat) (cursor vnode_index : Nat)
    (level : List VDomNode) (moved : VDomNode) : RState × List VDomNode :=
  if cursor ≠ vnode_index then
    (⟨st.fresh, st.calls ++ [HostCall.moveChild parent vnode_index cursor]⟩,
      (level.eraseIdx vnode_index).insertIdx cursor moved)
  else (st, level)

mutual
/-- `add_node` from web_render.rs lines 942-1160: process one new node
against the level at the cursor.  Mirrors the source: compute
value/keys, flatten the listener traversal (propagating failure), scan
for a match; on a match diff listeners then attributes, recurse into
children with a fresh cursor, remove trailing children, then relocate
if matched away from the cursor; with no match create the element,
attach everything, recurse, remove trailing children, and insert at the
cursor.  A failing children traversal propagates before the trailing
removal / relocation / insertion, leaving the level partially updated
and the cursor not incremented. -/
def add_node (st : RState) (keys0 : Keys) (parent : Nat)
    (level : List VDomNode) (cursor : Nat) : DomTree → RStep
  | .failStep => ⟨st, level, cursor, true⟩
  | .node value key attrs lsteps children =>
    let keys := pushKey keys0 key
    match flattenListeners lsteps with
    | none => ⟨st, level, cursor, true⟩
    | some listeners =>
      match findMatch level cursor keys value with
      | some (vnode_index, vnode) =>
        let rl := removeExcessListeners vnode.web_element listeners vnode.listeners
        let st1 : RState := ⟨st.fresh, st.calls ++ rl.2⟩
        let al := addNewListeners vnode.web_element st1 rl.1 listeners
        let at1 := removeExcessAttributes attrs vnode.attributes
        let aa := addNewAttributes vnode.web_element al.1 at1 attrs
        let r := process_children aa.1 keys vnode.web_element vnode.children 0 children
        if r.failed then
          ⟨r.st,
            level.set vnode_index
              (VDomNode.mk vnode.value vnode.keys vnode.web_element aa.2 al.2 r.level),
            cursor, true⟩
        else
          let rt := removeTrailing r.st r.cursor r.level
          let vnode' :=
            VDomNode.mk vnode.value vnode.keys vnode.web_element aa.2 al.2 rt.2
          let mv := move_matched rt.1 parent cursor vnode_index
            (level.set vnode_index vnode') vnode'
          ⟨mv.1, mv.2, cursor + 1, false⟩
      | none =>
        let created : RState × Nat :=
          match value with
          | .Tag tag =>
            (⟨st.fresh + 1, st.calls ++ [HostCall.createElement tag]⟩, st.fresh)
          | .Text s =>
            (⟨st.fresh + 1, st.calls ++ [HostCall.createText s]⟩, st.fresh)
        let handle := created.2
        let als := attachAllListeners handle created.1 listeners
        let sas := setAllAttributes handle als.1 attrs
        let r := process_children sas.1 keys handle [] 0 children
        if r.failed then ⟨r.st, level, cursor, true⟩
        else
          let rt := removeTrailing r.st r.cursor r.level
          let st5 : RState :=
            ⟨rt.1.fresh, rt.1.calls ++ [HostCall.insertChild parent cursor handle]⟩
          ⟨st5,
            level.insertIdx cursor
              (VDomNode.mk value keys handle sas.2 als.2 rt.2),
            cursor + 1, false⟩
/-- Modelled from the spec (processors.rs is not among the source files
under verification): `process_all` over a sibling sequence visits each
step in declared order, threading the accumulator, and aborts on the
first failure without visiting later steps (spec section 4.1). -/
def process_children (st : RState) (keys : Keys) (parent : Nat)
    (level : List VDomNode) (cursor : Nat) : DomForest → RStep
  | .nil => ⟨st, level, cursor, false⟩
  | .cons t ts =>
    let r := add_node st keys parent level cursor t
    if r.failed then r
    else process_children r.st keys parent r.level r.cursor ts
end

/-- The reconciliation entry of `update_system`, web_render.rs lines
624-637: reconcile the freshly rendered root node against
`vdom_root.children` with an empty key path and cursor 0.  The root
element's handle is 0.  Note the source performs no trailing removal at
this level after `process_all` returns. -/
def update_system (st : RState) (rootChildren : List VDomNode)
    (t : DomTree) : RStep :=
  process_children st [] 0 rootChildren 0 (.cons t .nil)

/-- The `.unwrap()` on the processing result (web_render.rs lines 112
and 635): a failed pass panics the driver; `none` models the panic. -/
def update_system_unwrap (st : RState) (rootChildren : List VDomNode)
    (t : DomTree) : Option RStep :=
  let r := update_system st rootChildren t
  if r.failed then none else some r

/-- The initial draw performed by `run` (web_render.rs lines 101-115):
after `remove_all_children` the root level is empty, then the rendered
node is processed exactly as in `update_system`. -/
def run (st : RState) (t : DomTree) : Option RStep :=
  update_system_unwrap st [] t

end Domafic

namespace Domafic

/-- `WebElement::insert` (web_render.rs lines 656-680): the JS helper
returns -1 iff the index exceeds `parent.children.length`; the Rust
wrapper panics iff the result is negative.  `childCount` is the host
parent's current child count; `none` models the panic. -/
def WebElement_insert (childCount : Nat) (index : Nat) : Option Unit :=
  let err : Int := if index > childCount then -1 else 0
  if err < 0 then none else some ()

/-- Outcome of a host-surface call made through the emscripten bridge:
`ok` models the JS helper reaching `return 0` and the Rust wrapper
returning normally; `panicked` models the helper returning -1 and the
Rust wrapper panicking on the negative result; `jsError` models the JS
code throwing before reaching any `return` statement, so the call
terminates abnormally and no value — normal or error — is handed back
to the caller. -/
inductive HostOutcome : Type where
  | ok : HostOutcome
  | panicked : HostOutcome
  | jsError : HostOutcome
deriving DecidableEq

/-- `WebElement::move_child` (web_render.rs lines 682-708).  The JS
helper first checks `old_index > parent.children.length` and
`new_index > parent.children.length` (strict `>`), returning -1 on
either, upon which the Rust wrapper panics.  Otherwise it reads
`element = parent.children[old_index]`: when `old_index` equals
`parent.children.length` that read yields `undefined`, and the
following `appendChild(element)` / `insertBefore(element, ...)` throws
a TypeError, terminating the call abnormally before `return 0` is
reached.  Only with `old_index < length` (an existing child) and
`new_index <= length` (a valid target position) does the helper return
0 and the wrapper return normally. -/
def WebElement_move_child (childCount : Nat) (oldIndex newIndex : Nat) :
    HostOutcome :=
  if oldIndex > childCount then .panicked
  else if newIndex > childCount then .panicked
  else if oldIndex = childCount then .jsError
  else .ok

/-- The timeout argument passed to the JS side (web_render.rs line 297):
`timeout_millis.unwrap_or(0)`. -/
def http_timeout_arg (timeout_millis : Option Nat) : Nat :=
  timeout_millis.getD 0

/-- Whether the JS side arms `xhr.timeout` (web_render.rs line 283):
`if (timeout != 0) { xhr.timeout = timeout; }`. -/
def timeout_armed (timeout_millis : Option Nat) : Bool :=
  http_timeout_arg timeout_millis != 0

end Domafic

namespace Domafic

/-! ### List index helpers

Small positional facts about `set`, `drop`, `take`, `insertIdx` and
`eraseIdx` used throughout the reconciler proofs. -/

theorem getq_of_drop_cons {α : Type} (l : List α) (n : Nat) (v : α)
    (t : List α) (h : l.drop n = v :: t) : l[n]? = some v := by
  induction l generalizing n with
  | nil => simp at h
  | cons a l ih =>
    cases n with
    | zero => simp at h ⊢; exact h.1
    | succ n =>
      simp only [List.drop_succ_cons] at h
      simpa using ih n h

theorem drop_succ_of_drop_cons {α : Type} (l : List α) (n : Nat) (v : α)
    (t : List α) (h : l.drop n = v :: t) : l.drop (n + 1) = t := by
  induction l generalizing n with
  | nil => simp at h
  | cons a l ih =>
    cases n with
    | zero => simp at h ⊢; exact h.2
    | succ n =>
      simp only [List.drop_succ_cons] at h ⊢
      exact ih n h

theorem drop_cons_of_getq {α : Type} (l : List α) (n : Nat) (v : α)
    (h : l[n]? = some v) : l.drop n = v :: l.drop (n + 1) := by
  induction l generalizing n with
  | nil => simp at h
  | cons a l ih =>
    cases n with
    | zero => simp at h ⊢; exact h
    | succ n =>
      simp only [List.getElem?_cons_succ] at h
      simp only [List.drop_succ_cons]
      exact ih n h

theorem getq_set_self {α : Type} (l : List α) (i : Nat) (a : α)
    (h : i < l.length) : (l.set i a)[i]? = some a := by
  induction l generalizing i with
  | nil => simp at h
  | cons b l ih =>
    cases i with
    | zero => simp
    | succ i =>
      simp only [List.set_cons_succ, List.getElem?_cons_succ]
      exact ih i (by simpa using h)

theorem getq_set_ne {α : Type} (l : List α) (i : Nat) (a : α) (j : Nat)
    (h : i ≠ j) : (l.set i a)[j]? = l[j]? := by
  induction l generalizing i j with
  | nil => simp
  | cons b l ih =>
    cases i with
    | zero =>
      cases j with
      | zero => exact absurd rfl h
      | succ j => simp
    | succ i =>
      cases j with
      | zero => simp
      | succ j =>
        simp only [List.set_cons_succ, List.getElem?_cons_succ]
        exact ih i j (fun hij => h (by omega))

theorem drop_set_of_lt {α : Type} (l : List α) (i : Nat) (a : α) (n : Nat)
    (h : i < n) : (l.set i a).drop n = l.drop n := by
  induction l generalizing i n with
  | nil => simp
  | cons b l ih =>
    cases i with
    | zero =>
      cases n with
      | zero => omega
      | succ n => simp
    | succ i =>
      cases n with
      | zero => omega
      | succ n =>
        simp only [List.set_cons_succ, List.drop_succ_cons]
        exact ih i n (by omega)

theorem getq_insertIdx_lt {α : Type} (l : List α) (n : Nat) (x : α)
    (j : Nat) (h : j < n) : (l.insertIdx n x)[j]? = l[j]? := by
  induction l generalizing n j with
  | nil =>
    cases n with
    | zero => omega
    | succ n => simp [List.insertIdx_succ_nil]
  | cons b l ih =>
    cases n with
    | zero => omega
    | succ n =>
      rw [List.insertIdx_succ_cons]
      cases j with
      | zero => simp
      | succ j =>
        simp only [List.getElem?_cons_succ]
        exact ih n j (by omega)

theorem getq_insertIdx_self {α : Type} (l : List α) (n : Nat) (x : α)
    (h : n ≤ l.length) : (l.insertIdx n x)[n]? = some x := by
  induction l generalizing n with
  | nil =>
    cases n with
    | zero => simp
    | succ n => simp at h
  | cons b l ih =>
    cases n with
    | zero => simp
    | succ n =>
      rw [List.insertIdx_succ_cons]
      simp only [List.getElem?_cons_succ]
      exact ih n (by simpa using h)

theorem getq_eraseIdx_lt {α : Type} (l : List α) (i : Nat) (j : Nat)
    (h : j < i) : (l.eraseIdx i)[j]? = l[j]? := by
  induction l generalizing i j with
  | nil => simp
  | cons b l ih =>
    cases i with
    | zero => omega
    | succ i =>
      simp only [List.eraseIdx_cons_succ]
      cases j with
      | zero => simp
      | succ j =>
        simp only [List.getElem?_cons_succ]
        exact ih i j (by omega)

theorem length_eraseIdx_of_lt {α : Type} (l : List α) (i : Nat)
    (h : i < l.length) : (l.eraseIdx i).length = l.length - 1 := by
  induction l generalizing i with
  | nil => simp at h
  | cons b l ih =>
    cases i with
    | zero => simp
    | succ i =>
      simp only [List.eraseIdx_cons_succ, List.length_cons]
      rw [ih i (by simpa using h)]
      have hi : i < l.length := by simpa using h
      omega

theorem getq_take_lt {α : Type} (l : List α) (n : Nat) (j : Nat)
    (h : j < n) : (l.take n)[j]? = l[j]? := by
  induction l generalizing n j with
  | nil => simp
  | cons b l ih =>
    cases n with
    | zero => omega
    | succ n =>
      cases j with
      | zero => simp
      | succ j =>
        simp only [List.take_succ_cons, List.getElem?_cons_succ]
        exact ih n j (by omega)

theorem take_slice_cons {α : Type} (l : List α) (i : Nat) (v : α) (n : Nat)
    (h : l[i]? = some v) :
    (l.drop i).take (n + 1) = v :: (l.drop (i + 1)).take n := by
  rw [drop_cons_of_getq l i v h]
  simp

end Domafic

namespace Domafic

/-! ### Scan characterization -/

theorem getq_drop {α : Type} (l : List α) (n m : Nat) :
    (l.drop n)[m]? = l[n + m]? := by
  induction l generalizing n with
  | nil => simp
  | cons a l ih =>
    cases n with
    | zero => simp
    | succ n =>
      simp only [List.drop_succ_cons]
      rw [ih n]
      simp [Nat.succ_add]

theorem lpairEq_refl (a : ListenerRef) : lpairEq a a := ⟨rfl, rfl⟩

theorem findMatchAux_spec (l : List VDomNode) (k : Keys) (val : VNodeValue) :
    ∀ (i j : Nat) (n : VDomNode), findMatchAux k val l i = some (j, n) →
      i ≤ j ∧ l[j - i]? = some n ∧ n.keys = k ∧ n.value = val ∧
      ∀ d, d < j - i → ∀ w, l[d]? = some w → ¬(w.keys = k ∧ w.value = val) := by
  induction l with
  | nil => intro i j n h; simp [findMatchAux] at h
  | cons v rest ih =>
    intro i j n h
    by_cases hc : v.keys = k ∧ v.value = val
    · simp [findMatchAux, hc] at h
      obtain ⟨hj, hn⟩ := h
      subst hj; subst hn
      refine ⟨Nat.le_refl _, ?_, hc.1, hc.2, ?_⟩
      · simp
      · intro d hd; omega
    · simp [findMatchAux, hc] at h
      obtain ⟨h1, h2, h3, h4, h5⟩ := ih (i + 1) j n h
      refine ⟨by omega, ?_, h3, h4, ?_⟩
      · have : j - i = (j - (i + 1)) + 1 := by omega
        rw [this]
        simpa using h2
      · intro d hd w hw
        cases d with
        | zero =>
          simp at hw
          subst hw
          exact hc
        | succ d =>
          simp only [List.getElem?_cons_succ] at hw
          exact h5 d (by omega) w hw

theorem findMatch_spec (level : List VDomNode) (cursor : Nat) (k : Keys)
    (val : VNodeValue) (j : Nat) (n : VDomNode)
    (h : findMatch level cursor k val = some (j, n)) :
    cursor ≤ j ∧ level[j]? = some n ∧ n.keys = k ∧ n.value = val ∧
    ∀ m, cursor ≤ m → m < j → ∀ w, level[m]? = some w →
      ¬(w.keys = k ∧ w.value = val) := by
  obtain ⟨h1, h2, h3, h4, h5⟩ :=
    findMatchAux_spec (level.drop cursor) k val cursor j n h
  refine ⟨h1, ?_, h3, h4, ?_⟩
  · rw [getq_drop] at h2
    have : cursor + (j - cursor) = j := by omega
    rwa [this] at h2
  · intro m hm1 hm2 w hw
    have : (level.drop cursor)[m - cursor]? = some w := by
      rw [getq_drop]
      have : cursor + (m - cursor) = m := by omega
      rwa [this]
    exact h5 (m - cursor) (by omega) w this

theorem findMatch_head (level : List VDomNode) (cursor : Nat)
    (v : VDomNode) (k : Keys) (val : VNodeValue)
    (hget : level[cursor]? = some v) (hk : v.keys = k) (hv : v.value = val) :
    findMatch level cursor k val = some (cursor, v) := by
  unfold findMatch
  rw [drop_cons_of_getq level cursor v hget]
  simp [findMatchAux, hk, hv]

/-! ### Listener-diff characterization -/

theorem removeExcessListeners_kept (h : Nat) (news : List ListenerRef)
    (cur : List (Nat × ListenerRef)) :
    (removeExcessListeners h news cur).1 =
      cur.filter (fun e => decide (∃ n ∈ news, lpairEq e.2 n)) := by
  induction cur with
  | nil => simp [removeExcessListeners]
  | cons e rest ih =>
    by_cases hp : ∃ n ∈ news, lpairEq e.2 n
    · simp [removeExcessListeners, hp, List.filter_cons, ih]
    · simp [removeExcessListeners, hp, List.filter_cons, ih]

theorem removeExcessListeners_calls (h : Nat) (news : List ListenerRef)
    (cur : List (Nat × ListenerRef)) :
    (removeExcessListeners h news cur).2 =
      (cur.filter (fun e => !decide (∃ n ∈ news, lpairEq e.2 n))).map
        (fun e => HostCall.detachListener h e.1) := by
  induction cur with
  | nil => simp [removeExcessListeners]
  | cons e rest ih =>
    by_cases hp : ∃ n ∈ news, lpairEq e.2 n
    · simp [removeExcessListeners, hp, List.filter_cons, ih]
    · simp [removeExcessListeners, hp, List.filter_cons, ih]

theorem removeExcessListeners_all_kept (h : Nat) (news : List ListenerRef)
    (cur : List (Nat × ListenerRef))
    (hall : ∀ e ∈ cur, ∃ n ∈ news, lpairEq e.2 n) :
    removeExcessListeners h news cur = (cur, []) := by
  induction cur with
  | nil => simp [removeExcessListeners]
  | cons e rest ih =>
    have he : ∃ n ∈ news, lpairEq e.2 n := hall e (by simp)
    have hr : removeExcessListeners h news rest = (rest, []) :=
      ih (fun x hx => hall x (by simp [hx]))
    simp [removeExcessListeners, he, hr]

theorem addNewListeners_subset (h : Nat) (st : RState)
    (cur : List (Nat × ListenerRef)) (news : List ListenerRef) :
    ∀ e ∈ cur, e ∈ (addNewListeners h st cur news).2 := by
  induction news generalizing st cur with
  | nil => intro e he; simpa [addNewListeners] using he
  | cons l rest ih =>
    intro e he
    by_cases hp : ∃ x ∈ cur, lpairEq x.2 l
    · simp only [addNewListeners, if_pos hp]
      exact ih st cur e he
    · simp only [addNewListeners, if_neg hp]
      exact ih _ _ e (by simp [he])

theorem addNewListeners_mem (h : Nat) (st : RState)
    (cur : List (Nat × ListenerRef)) (news : List ListenerRef) :
    ∀ l ∈ news, ∃ e ∈ (addNewListeners h st cur news).2, lpairEq e.2 l := by
  induction news generalizing st cur with
  | nil => intro l hl; simp at hl
  | cons l0 rest ih =>
    intro l hl
    by_cases hp : ∃ x ∈ cur, lpairEq x.2 l0
    · simp only [addNewListeners, if_pos hp]
      rcases List.mem_cons.mp hl with heq | hmem
      · subst heq
        obtain ⟨x, hx, hpx⟩ := hp
        exact ⟨x, addNewListeners_subset h st cur rest x hx, hpx⟩
      · exact ih st cur l hmem
    · simp only [addNewListeners, if_neg hp]
      rcases List.mem_cons.mp hl with heq | hmem
      · subst heq
        refine ⟨(st.fresh, l), ?_, lpairEq_refl l⟩
        exact addNewListeners_subset h _ _ rest (st.fresh, l) (by simp)
      · exact ih _ _ l hmem

theorem addNewListeners_sources (h : Nat) (st : RState)
    (cur : List (Nat × ListenerRef)) (news : List ListenerRef) :
    ∀ e ∈ (addNewListeners h st cur news).2, e ∈ cur ∨ e.2 ∈ news := by
  induction news generalizing st cur with
  | nil => intro e he; simp only [addNewListeners] at he; exact Or.inl he
  | cons l0 rest ih =>
    intro e he
    by_cases hp : ∃ x ∈ cur, lpairEq x.2 l0
    · simp only [addNewListeners, if_pos hp] at he
      rcases ih st cur e he with h1 | h2
      · exact Or.inl h1
      · exact Or.inr (by simp [h2])
    · simp only [addNewListeners, if_neg hp] at he
      rcases ih _ _ e he with h1 | h2
      · rcases List.mem_append.mp h1 with h3 | h3
        · exact Or.inl h3
        · right
          simp at h3
          rw [h3]
          simp
      · exact Or.inr (by simp [h2])

theorem addNewListeners_all_present (h : Nat) (st : RState)
    (cur : List (Nat × ListenerRef)) (news : List ListenerRef)
    (hall : ∀ l ∈ news, ∃ x ∈ cur, lpairEq x.2 l) :
    addNewListeners h st cur news = (st, cur) := by
  induction news with
  | nil => rfl
  | cons l0 rest ih =>
    have hp : ∃ x ∈ cur, lpairEq x.2 l0 := hall l0 (by simp)
    simp only [addNewListeners, if_pos hp]
    exact ih (fun l hl => hall l (by simp [hl]))

theorem addNewListeners_calls_length (h : Nat) (st : RState)
    (cur : List (Nat × ListenerRef)) (news : List ListenerRef) :
    st.calls.length ≤ (addNewListeners h st cur news).1.calls.length := by
  induction news generalizing st cur with
  | nil => exact Nat.le_refl _
  | cons l0 rest ih =>
    by_cases hp : ∃ x ∈ cur, lpairEq x.2 l0
    · simp only [addNewListeners, if_pos hp]
      exact ih st cur
    · simp only [addNewListeners, if_neg hp]
      have := ih (⟨st.fresh + 1,
        st.calls ++ [HostCall.attachListener h l0.event]⟩ : RState)
        (cur ++ [(st.fresh, l0)])
      simp at this
      omega

theorem addNewListeners_grows (h : Nat) (st : RState)
    (cur : List (Nat × ListenerRef)) (news : List ListenerRef)
    (hmiss : ∃ l ∈ news, ∀ x ∈ cur, ¬lpairEq x.2 l) :
    st.calls.length < (addNewListeners h st cur news).1.calls.length := by
  induction news generalizing st cur with
  | nil => simp at hmiss
  | cons l0 rest ih =>
    by_cases hp : ∃ x ∈ cur, lpairEq x.2 l0
    · simp only [addNewListeners, if_pos hp]
      obtain ⟨l, hl, hlmiss⟩ := hmiss
      rcases List.mem_cons.mp hl with heq | hmem
      · subst heq
        obtain ⟨x, hx, hpx⟩ := hp
        exact absurd hpx (hlmiss x hx)
      · exact ih st cur ⟨l, hmem, hlmiss⟩
    · simp only [addNewListeners, if_neg hp]
      have := addNewListeners_calls_length h (⟨st.fresh + 1,
        st.calls ++ [HostCall.attachListener h l0.event]⟩ : RState)
        (cur ++ [(st.fresh, l0)]) rest
      simp at this
      omega

theorem addNewListeners_noop_iff (h : Nat) (st : RState)
    (cur : List (Nat × ListenerRef)) (news : List ListenerRef) :
    (addNewListeners h st cur news).1.calls = st.calls ↔
      ∀ l ∈ news, ∃ x ∈ cur, lpairEq x.2 l := by
  constructor
  · intro hcalls
    by_contra hnot
    push_neg at hnot
    obtain ⟨l, hl, hmiss⟩ := hnot
    have := addNewListeners_grows h st cur news ⟨l, hl, hmiss⟩
    rw [hcalls] at this
    omega
  · intro hall
    rw [addNewListeners_all_present h st cur news hall]

/-! ### Attribute-diff characterization -/

theorem removeExcessAttributes_filter (news olds : List KeyValue) :
    removeExcessAttributes news olds =
      olds.filter (fun a => decide (a ∈ news)) := by
  induction olds with
  | nil => simp [removeExcessAttributes]
  | cons a rest ih =>
    by_cases hp : a ∈ news
    · simp [removeExcessAttributes, hp, List.filter_cons, ih]
    · simp [removeExcessAttributes, hp, List.filter_cons, ih]

theorem addNewAttributes_subset (h : Nat) (st : RState)
    (cur news : List KeyValue) :
    ∀ a ∈ cur, a ∈ (addNewAttributes h st cur news).2 := by
  induction news generalizing st cur with
  | nil => intro a ha; simpa [addNewAttributes] using ha
  | cons b rest ih =>
    intro a ha
    by_cases hp : b ∈ cur
    · simp only [addNewAttributes, if_pos hp]
      exact ih st cur a ha
    · simp only [addNewAttributes, if_neg hp]
      exact ih _ _ a (by simp [ha])

theorem addNewAttributes_mem (h : Nat) (st : RState)
    (cur news : List KeyValue) :
    ∀ a ∈ news, a ∈ (addNewAttributes h st cur news).2 := by
  induction news generalizing st cur with
  | nil => intro a ha; simp at ha
  | cons b rest ih =>
    intro a ha
    by_cases hp : b ∈ cur
    · simp only [addNewAttributes, if_pos hp]
      rcases List.mem_cons.mp ha with heq | hmem
      · subst heq; exact addNewAttributes_subset h st cur rest a hp
      · exact ih st cur a hmem
    · simp only [addNewAttributes, if_neg hp]
      rcases List.mem_cons.mp ha with heq | hmem
      · subst heq
        exact addNewAttributes_subset h _ _ rest a (by simp)
      · exact ih _ _ a hmem

theorem addNewAttributes_all_present (h : Nat) (st : RState)
    (cur news : List KeyValue) (hall : ∀ a ∈ news, a ∈ cur) :
    addNewAttributes h st cur news = (st, cur) := by
  induction news with
  | nil => rfl
  | cons b rest ih =>
    have hp : b ∈ cur := hall b (by simp)
    simp only [addNewAttributes, if_pos hp]
    exact ih (fun a ha => hall a (by simp [ha]))

/-! ### Create-branch loops -/

theorem attachAllListeners_snd (h : Nat) (st : RState)
    (ls : List ListenerRef) :
    (attachAllListeners h st ls).2.map Prod.snd = ls := by
  induction ls generalizing st with
  | nil => rfl
  | cons l rest ih => simp [attachAllListeners, ih]

theorem setAllAttributes_snd (h : Nat) (st : RState) (as : List KeyValue) :
    (setAllAttributes h st as).2 = as := by
  induction as generalizing st with
  | nil => rfl
  | cons a rest ih => simp [setAllAttributes, ih]

/-! ### Trailing-removal characterization -/

theorem removeTrailing_nop (st : RState) (cursor : Nat)
    (lvl : List VDomNode) (h : lvl.length ≤ cursor) :
    removeTrailing st cursor lvl = (st, lvl) := by
  unfold removeTrailing
  rw [Nat.sub_eq_zero_of_le h]
  rfl

theorem removeTrailingAux_level (n : Nat) :
    ∀ (st : RState) (lvl : List VDomNode), n ≤ lvl.length →
      (removeTrailingAux st lvl n).2 = lvl.take (lvl.length - n) := by
  induction n with
  | zero => intro st lvl _; simp [removeTrailingAux]
  | succ n ih =>
    intro st lvl h
    rcases List.eq_nil_or_concat lvl with hnil | ⟨ys, y, hys⟩
    · subst hnil; simp at h
    · subst hys
      simp only [List.concat_eq_append] at h ⊢
      have hlast : (ys ++ [y]).getLast? = some y := by
        simp [List.getLast?_concat]
      have hdl : (ys ++ [y]).dropLast = ys := by
        simp
      simp only [removeTrailingAux, hlast, hdl]
      have hlen : n ≤ ys.length := by
        simp at h
        omega
      rw [ih _ ys hlen]
      have harith : ys.length + 1 - (n + 1) = ys.length - n := by omega
      simp only [List.length_append, List.length_cons, List.length_nil]
      rw [harith]
      rw [List.take_append_of_le_length (by omega)]

theorem removeTrailing_level (st : RState) (cursor : Nat)
    (lvl : List VDomNode) (h : cursor ≤ lvl.length) :
    (removeTrailing st cursor lvl).2 = lvl.take cursor := by
  unfold removeTrailing
  rw [removeTrailingAux_level (lvl.length - cursor) st lvl (by omega)]
  congr 1
  omega

end Domafic

namespace Domafic

/-! ### No host attribute removal is ever emitted

The host-side `remove_attribute` call in `add_node` (web_render.rs line
1048) is commented out, so no reconciliation step ever emits a
`removeAttribute` host call. -/

def isRemoveAttribute : HostCall → Bool
  | .removeAttribute _ _ => true
  | _ => false

/-- Every call in `st2` either was already in `st` or is not a
`removeAttribute`. -/
def CallsFrom (st st2 : RState) : Prop :=
  ∀ c ∈ st2.calls, c ∈ st.calls ∨ isRemoveAttribute c = false

theorem CallsFrom.rfl (st : RState) : CallsFrom st st :=
  fun _ hc => Or.inl hc

theorem CallsFrom.trans {s1 s2 s3 : RState} (h12 : CallsFrom s1 s2)
    (h23 : CallsFrom s2 s3) : CallsFrom s1 s3 := by
  intro c hc
  rcases h23 c hc with h | h
  · exact h12 c h
  · exact Or.inr h

theorem CallsFrom.append_ok (st : RState) (f : Nat) (extra : List HostCall)
    (hextra : ∀ c ∈ extra, isRemoveAttribute c = false) :
    CallsFrom st ⟨f, st.calls ++ extra⟩ := by
  intro c hc
  rcases List.mem_append.mp hc with h | h
  · exact Or.inl h
  · exact Or.inr (hextra c h)

theorem removeExcessListeners_noRA (h : Nat) (news : List ListenerRef)
    (cur : List (Nat × ListenerRef)) :
    ∀ c ∈ (removeExcessListeners h news cur).2, isRemoveAttribute c = false := by
  intro c hc
  rw [removeExcessListeners_calls] at hc
  obtain ⟨e, _, hce⟩ := List.mem_map.mp hc
  rw [← hce]
  rfl

theorem addNewListeners_noRA (h : Nat) (st : RState)
    (cur : List (Nat × ListenerRef)) (news : List ListenerRef) :
    CallsFrom st (addNewListeners h st cur news).1 := by
  induction news generalizing st cur with
  | nil => exact CallsFrom.rfl st
  | cons l0 rest ih =>
    by_cases hp : ∃ x ∈ cur, lpairEq x.2 l0
    · simp only [addNewListeners, if_pos hp]
      exact ih st cur
    · simp only [addNewListeners, if_neg hp]
      refine CallsFrom.trans ?_ (ih _ _)
      exact CallsFrom.append_ok st _ _ (by intro c hc; simp at hc; rw [hc]; rfl)

theorem addNewAttributes_noRA (h : Nat) (st : RState)
    (cur news : List KeyValue) :
    CallsFrom st (addNewAttributes h st cur news).1 := by
  induction news generalizing st cur with
  | nil => exact CallsFrom.rfl st
  | cons a rest ih =>
    by_cases hp : a ∈ cur
    · simp only [addNewAttributes, if_pos hp]
      exact ih st cur
    · simp only [addNewAttributes, if_neg hp]
      refine CallsFrom.trans ?_ (ih _ _)
      exact CallsFrom.append_ok st _ _ (by intro c hc; simp at hc; rw [hc]; rfl)

theorem attachAllListeners_noRA (h : Nat) (st : RState)
    (ls : List ListenerRef) :
    CallsFrom st (attachAllListeners h st ls).1 := by
  induction ls generalizing st with
  | nil => exact CallsFrom.rfl st
  | cons l rest ih =>
    simp only [attachAllListeners]
    refine CallsFrom.trans ?_ (ih _)
    exact CallsFrom.append_ok st _ _ (by intro c hc; simp at hc; rw [hc]; rfl)

theorem setAllAttributes_noRA (h : Nat) (st : RState)
    (as : List KeyValue) :
    CallsFrom st (setAllAttributes h st as).1 := by
  induction as generalizing st with
  | nil => exact CallsFrom.rfl st
  | cons a rest ih =>
    simp only [setAllAttributes]
    refine CallsFrom.trans ?_ (ih _)
    exact CallsFrom.append_ok st _ _ (by intro c hc; simp at hc; rw [hc]; rfl)

theorem removeTrailingAux_noRA (n : Nat) :
    ∀ (st : RState) (lvl : List VDomNode),
      CallsFrom st (removeTrailingAux st lvl n).1 := by
  induction n with
  | zero => intro st lvl; exact CallsFrom.rfl st
  | succ n ih =>
    intro st lvl
    cases hlast : lvl.getLast? with
    | none => simp only [removeTrailingAux, hlast]; exact CallsFrom.rfl st
    | some lastNode =>
      simp only [removeTrailingAux, hlast]
      refine CallsFrom.trans ?_ (ih _ _)
      exact CallsFrom.append_ok st _ _ (by intro c hc; simp at hc; rw [hc]; rfl)

theorem removeTrailing_noRA (st : RState) (cursor : Nat)
    (lvl : List VDomNode) : CallsFrom st (removeTrailing st cursor lvl).1 :=
  removeTrailingAux_noRA _ st lvl

theorem move_matched_noRA (st : RState) (parent cursor vnode_index : Nat)
    (level : List VDomNode) (moved : VDomNode) :
    CallsFrom st (move_matched st parent cursor vnode_index level moved).1 := by
  unfold move_matched
  by_cases hne : cursor ≠ vnode_index
  · rw [if_pos hne]
    exact CallsFrom.append_ok st _ _ (by intro c hc; simp at hc; rw [hc]; rfl)
  · rw [if_neg hne]
    exact CallsFrom.rfl st

mutual
theorem add_node_noRA (t : DomTree) : ∀ (st : RState) (keys0 : Keys)
    (parent : Nat) (level : List VDomNode) (cursor : Nat),
    CallsFrom st (add_node st keys0 parent level cursor t).st := by
  cases t with
  | failStep => intro st k p lvl c; exact CallsFrom.rfl st
  | node value key attrs lsteps children =>
    intro st k p lvl c
    simp only [add_node]
    cases hfl : flattenListeners lsteps with
    | none => exact CallsFrom.rfl st
    | some listeners =>
      simp only
      cases hfm : findMatch lvl c (pushKey k key) value with
      | some pr =>
        obtain ⟨vnode_index, vnode⟩ := pr
        simp only
        split
        · apply CallsFrom.trans
          swap
          · exact process_children_noRA children _ _ _ _ _
          apply CallsFrom.trans
          swap
          · exact addNewAttributes_noRA _ _ _ _
          apply CallsFrom.trans
          swap
          · exact addNewListeners_noRA _ _ _ _
          exact CallsFrom.append_ok st _ _ (removeExcessListeners_noRA _ _ _)
        · apply CallsFrom.trans
          swap
          · exact move_matched_noRA _ _ _ _ _ _
          apply CallsFrom.trans
          swap
          · exact removeTrailing_noRA _ _ _
          apply CallsFrom.trans
          swap
          · exact process_children_noRA children _ _ _ _ _
          apply CallsFrom.trans
          swap
          · exact addNewAttributes_noRA _ _ _ _
          apply CallsFrom.trans
          swap
          · exact addNewListeners_noRA _ _ _ _
          exact CallsFrom.append_ok st _ _ (removeExcessListeners_noRA _ _ _)
      | none =>
        simp only
        cases value with
        | Tag tag =>
          simp only
          split
          · apply CallsFrom.trans
            swap
            · exact process_children_noRA children _ _ _ _ _
            apply CallsFrom.trans
            swap
            · exact setAllAttributes_noRA _ _ _
            apply CallsFrom.trans
            swap
            · exact attachAllListeners_noRA _ _ _
            exact CallsFrom.append_ok st _ _
              (by intro cc hcc; simp at hcc; rw [hcc]; rfl)
          · apply CallsFrom.trans
            swap
            · exact CallsFrom.append_ok _ _ [HostCall.insertChild p c st.fresh]
                (by intro cc hcc; simp at hcc; rw [hcc]; rfl)
            apply CallsFrom.trans
            swap
            · exact removeTrailing_noRA _ _ _
            apply CallsFrom.trans
            swap
            · exact process_children_noRA children _ _ _ _ _
            apply CallsFrom.trans
            swap
            · exact setAllAttributes_noRA _ _ _
            apply CallsFrom.trans
            swap
            · exact attachAllListeners_noRA _ _ _
            exact CallsFrom.append_ok st _ _
              (by intro cc hcc; simp at hcc; rw [hcc]; rfl)
        | Text s =>
          simp only
          split
          · apply CallsFrom.trans
            swap
            · exact process_children_noRA children _ _ _ _ _
            apply CallsFrom.trans
            swap
            · exact setAllAttributes_noRA _ _ _
            apply CallsFrom.trans
            swap
            · exact attachAllListeners_noRA _ _ _
            exact CallsFrom.append_ok st _ _
              (by intro cc hcc; simp at hcc; rw [hcc]; rfl)
          · apply CallsFrom.trans
            swap
            · exact CallsFrom.append_ok _ _ [HostCall.insertChild p c st.fresh]
                (by intro cc hcc; simp at hcc; rw [hcc]; rfl)
            apply CallsFrom.trans
            swap
            · exact removeTrailing_noRA _ _ _
            apply CallsFrom.trans
            swap
            · exact process_children_noRA children _ _ _ _ _
            apply CallsFrom.trans
            swap
            · exact setAllAttributes_noRA _ _ _
            apply CallsFrom.trans
            swap
            · exact attachAllListeners_noRA _ _ _
            exact CallsFrom.append_ok st _ _
              (by intro cc hcc; simp at hcc; rw [hcc]; rfl)
theorem process_children_noRA (ts : DomForest) : ∀ (st : RState)
    (keys : Keys) (parent : Nat) (level : List VDomNode) (cursor : Nat),
    CallsFrom st (process_children st keys parent level cursor ts).st := by
  cases ts with
  | nil => intro st k p lvl c; exact CallsFrom.rfl st
  | cons t ts =>
    intro st k p lvl c
    simp only [process_children]
    split
    · exact add_node_noRA t st k p lvl c
    · exact CallsFrom.trans (add_node_noRA t st k p lvl c)
        (process_children_noRA ts _ _ _ _ _)
end

end Domafic

namespace Domafic

/-! ### The reconciliation invariant

`Agrees keys0 t v` says a materialized node `v` is a faithful
materialization of the declarative node `t` rendered under key path
`keys0`: same variant/content and key path, every declared attribute
retained, attached listeners matching the declared listener sequence by
pointer + event name in both directions, and children materialized
level-by-level.  A reconciliation pass establishes this invariant, and
reconciling against a level satisfying it is a no-op. -/

mutual
inductive Agrees : Keys → DomTree → VDomNode → Prop where
  | mk (keys0 : Keys) (value : VNodeValue) (key : Option Nat)
      (attrs : List KeyValue) (lsteps : List (Option ListenerRef))
      (children : DomForest) (v : VDomNode) (Ls : List ListenerRef)
      (hfl : flattenListeners lsteps = some Ls)
      (hval : v.value = value)
      (hkeys : v.keys = pushKey keys0 key)
      (hattrs : ∀ a ∈ attrs, a ∈ v.attributes)
      (hlkept : ∀ e ∈ v.listeners, ∃ n ∈ Ls, lpairEq e.2 n)
      (hlall : ∀ l ∈ Ls, ∃ e ∈ v.listeners, lpairEq e.2 l)
      (hch : AgreesLevel (pushKey keys0 key) children v.children) :
      Agrees keys0 (.node value key attrs lsteps children) v
inductive AgreesLevel : Keys → DomForest → List VDomNode → Prop where
  | nil (k : Keys) : AgreesLevel k .nil []
  | cons (k : Keys) (t : DomTree) (ts : DomForest) (v : VDomNode)
      (vs : List VDomNode) (h1 : Agrees k t v) (h2 : AgreesLevel k ts vs) :
      AgreesLevel k (.cons t ts) (v :: vs)
end

theorem AgreesLevel_length (ts : DomForest) : ∀ (k : Keys)
    (vs : List VDomNode), AgreesLevel k ts vs →
    vs.length = DomForest.length ts := by
  cases ts with
  | nil => intro k vs h; cases h; rfl
  | cons t ts =>
    intro k vs h
    cases h with
    | cons _ _ _ v vs' h1 h2 =>
      simp only [List.length_cons, DomForest.length]
      rw [AgreesLevel_length ts _ _ h2]

/-! ### Second pass over an agreeing level is a no-op -/

mutual
theorem add_node_noop (t : DomTree) : ∀ (v : VDomNode) (keys0 : Keys)
    (st : RState) (parent : Nat) (level : List VDomNode) (cursor : Nat),
    Agrees keys0 t v → level[cursor]? = some v →
    ∃ v2, add_node st keys0 parent level cursor t =
      ⟨st, level.set cursor v2, cursor + 1, false⟩ := by
  cases t with
  | failStep =>
    intro v keys0 st parent level cursor hag
    cases hag
  | node value key attrs lsteps children =>
    intro v keys0 st parent level cursor hag hget
    cases hag with
    | mk _ _ _ _ _ _ _ Ls hfl hval hkeys hattrs hlkept hlall hch =>
      have hfm : findMatch level cursor (pushKey keys0 key) value =
          some (cursor, v) :=
        findMatch_head level cursor v (pushKey keys0 key) value hget hkeys hval
      simp only [add_node, hfl, hfm]
      rw [removeExcessListeners_all_kept v.web_element Ls v.listeners hlkept]
      simp only [List.append_nil]
      rw [addNewListeners_all_present v.web_element
        ⟨st.fresh, st.calls⟩ v.listeners Ls hlall]
      have hattrs2 : ∀ a ∈ attrs,
          a ∈ removeExcessAttributes attrs v.attributes := by
        intro a ha
        rw [removeExcessAttributes_filter]
        rw [List.mem_filter]
        exact ⟨hattrs a ha, by simpa using ha⟩
      rw [addNewAttributes_all_present v.web_element
        ⟨st.fresh, st.calls⟩ (removeExcessAttributes attrs v.attributes)
        attrs hattrs2]
      obtain ⟨level2, heq, hlen⟩ :=
        process_children_noop children v.children [] (pushKey keys0 key)
          ⟨st.fresh, st.calls⟩ v.web_element v.children 0 hch (by simp)
      rw [heq]
      simp only
      have hnop : removeTrailing ⟨st.fresh, st.calls⟩
          (0 + DomForest.length children) level2 =
          (⟨st.fresh, st.calls⟩, level2) := by
        apply removeTrailing_nop
        rw [hlen, AgreesLevel_length children _ _ hch]
        omega
      rw [hnop]
      simp only
      refine ⟨VDomNode.mk v.value v.keys v.web_element
        (removeExcessAttributes attrs v.attributes) v.listeners level2, ?_⟩
      unfold move_matched
      simp
theorem process_children_noop (ts : DomForest) : ∀ (vs rest : List VDomNode)
    (keys : Keys) (st : RState) (parent : Nat) (level : List VDomNode)
    (cursor : Nat), AgreesLevel keys ts vs → level.drop cursor = vs ++ rest →
    ∃ level2, process_children st keys parent level cursor ts =
      ⟨st, level2, cursor + DomForest.length ts, false⟩ ∧
      level2.length = level.length := by
  cases ts with
  | nil =>
    intro vs rest keys st parent level cursor hag _
    cases hag
    exact ⟨level, rfl, rfl⟩
  | cons t ts =>
    intro vs rest keys st parent level cursor hag hdrop
    cases hag with
    | cons _ _ _ v vs' h1 h2 =>
      have hget : level[cursor]? = some v :=
        getq_of_drop_cons level cursor v (vs' ++ rest) (by simpa using hdrop)
      obtain ⟨v2, haddeq⟩ :=
        add_node_noop t v keys st parent level cursor h1 hget
      have hdrop' : (level.set cursor v2).drop (cursor + 1) = vs' ++ rest := by
        rw [drop_set_of_lt level cursor v2 (cursor + 1) (by omega)]
        exact drop_succ_of_drop_cons level cursor v (vs' ++ rest)
          (by simpa using hdrop)
      obtain ⟨level2, heq, hlen⟩ :=
        process_children_noop ts vs' rest keys st parent
          (level.set cursor v2) (cursor + 1) h2 hdrop'
      refine ⟨level2, ?_, ?_⟩
      · simp only [process_children, haddeq]
        simp only [heq]
        have : cursor + 1 + DomForest.length ts =
            cursor + DomForest.length (DomForest.cons t ts) := by
          simp [DomForest.length]
          omega
        rw [this]
        simp
      · rw [hlen]
        simp
end

end Domafic

namespace Domafic

theorem lt_length_of_getq {α : Type} (l : List α) (i : Nat) (x : α)
    (h : l[i]? = some x) : i < l.length := by
  induction l generalizing i with
  | nil => simp at h
  | cons a l ih =>
    cases i with
    | zero => simp
    | succ i =>
      simp only [List.getElem?_cons_succ] at h
      have := ih i h
      simpa using Nat.succ_lt_succ this

/-! ### A successful pass establishes the invariant -/


mutual
theorem add_node_agrees (t : DomTree) : ∀ (st : RState) (keys0 : Keys)
    (parent : Nat) (level : List VDomNode) (cursor : Nat),
    cursor ≤ level.length →
    (add_node st keys0 parent level cursor t).failed = false →
    (add_node st keys0 parent level cursor t).cursor = cursor + 1 ∧
    (add_node st keys0 parent level cursor t).cursor ≤
      (add_node st keys0 parent level cursor t).level.length ∧
    (∀ j, j < cursor →
      (add_node st keys0 parent level cursor t).level[j]? = level[j]?) ∧
    ∃ v2, (add_node st keys0 parent level cursor t).level[cursor]? = some v2 ∧
      Agrees keys0 t v2 := by
  cases t with
  | failStep =>
    intro st keys0 parent level cursor hc hok
    simp [add_node] at hok
  | node value key attrs lsteps children =>
    intro st keys0 parent level cursor hc hok
    cases hfl : flattenListeners lsteps with
    | none => simp [add_node, hfl] at hok
    | some Ls =>
      cases hfm : findMatch level cursor (pushKey keys0 key) value with
      | some pr =>
        obtain ⟨vi, vnode⟩ := pr
        obtain ⟨hvi1, hvget, hvkeys, hvval, -⟩ :=
          findMatch_spec level cursor (pushKey keys0 key) value vi vnode hfm
        have hvilt : vi < level.length := lt_length_of_getq level vi vnode hvget
        simp only [add_node, hfl, hfm] at hok ⊢
        set rl := removeExcessListeners vnode.web_element Ls vnode.listeners
          with hrl
        set st1 : RState := ⟨st.fresh, st.calls ++ rl.2⟩ with hst1
        set al := addNewListeners vnode.web_element st1 rl.1 Ls with hal
        set at1 := removeExcessAttributes attrs vnode.attributes with hat1
        set aa := addNewAttributes vnode.web_element al.1 at1 attrs with haa
        set r := process_children aa.1 (pushKey keys0 key) vnode.web_element
          vnode.children 0 children with hr
        split at hok
        · simp at hok
        · rename_i hnf
          rw [if_neg hnf]
          have hrok : r.failed = false := by
            revert hnf
            cases r.failed <;> simp
          obtain ⟨hrc, hrcle, -, hrag⟩ :=
            process_children_agrees children aa.1 (pushKey keys0 key)
              vnode.web_element vnode.children 0 (Nat.zero_le _) hrok
          rw [← hr] at hrc hrcle hrag
          set rt := removeTrailing r.st r.cursor r.level with hrt
          set v2' := VDomNode.mk vnode.value vnode.keys vnode.web_element
            aa.2 al.2 rt.2 with hv2
          have hagnew : Agrees keys0
              (DomTree.node value key attrs lsteps children) v2' := by
            refine Agrees.mk keys0 value key attrs lsteps children v2' Ls hfl
              (by rw [hv2]; exact hvval)
              (by rw [hv2]; exact hvkeys) ?_ ?_ ?_ ?_
            · intro a ha
              rw [hv2]
              simp only [VDomNode.attributes]
              have := addNewAttributes_mem vnode.web_element al.1 at1 attrs a ha
              rw [← haa] at this
              exact this
            · intro e he
              rw [hv2] at he
              simp only [VDomNode.listeners] at he
              have hsrc := addNewListeners_sources vnode.web_element st1 rl.1 Ls
              rw [← hal] at hsrc
              rcases hsrc e he with hin | hin
              · have hkept := removeExcessListeners_kept vnode.web_element Ls
                  vnode.listeners
                rw [← hrl] at hkept
                rw [hkept] at hin
                obtain ⟨hmem, hcond⟩ := List.mem_filter.mp hin
                exact of_decide_eq_true hcond
              · exact ⟨e.2, hin, lpairEq_refl e.2⟩
            · intro l hl
              rw [hv2]
              simp only [VDomNode.listeners]
              have := addNewListeners_mem vnode.web_element st1 rl.1 Ls l hl
              rw [← hal] at this
              exact this
            · rw [hv2]
              simp only [VDomNode.children]
              rw [hrt, removeTrailing_level r.st r.cursor r.level hrcle, hrc]
              simpa using hrag
          by_cases hcvi : cursor = vi
          · subst hcvi
            have hmv : move_matched rt.1 parent cursor cursor
                (level.set cursor v2') v2' = (rt.1, level.set cursor v2') := by
              unfold move_matched
              simp
            rw [hmv]
            refine ⟨rfl, ?_, ?_, ?_⟩
            · simp only [List.length_set]
              omega
            · intro j hj
              exact getq_set_ne level cursor v2' j (by omega)
            · exact ⟨v2', getq_set_self level cursor v2' hvilt, hagnew⟩
          · have hlt : cursor < vi := by omega
            have hmv : move_matched rt.1 parent cursor vi
                (level.set vi v2') v2' =
                (⟨rt.1.fresh,
                  rt.1.calls ++ [HostCall.moveChild parent vi cursor]⟩,
                 ((level.set vi v2').eraseIdx vi).insertIdx cursor v2') := by
              unfold move_matched
              rw [if_pos hcvi]
            rw [hmv]
            have herlen : ((level.set vi v2').eraseIdx vi).length =
                level.length - 1 := by
              rw [length_eraseIdx_of_lt _ vi (by simpa using hvilt)]
              simp
            refine ⟨rfl, ?_, ?_, ?_⟩
            · show cursor + 1 ≤
                (((level.set vi v2').eraseIdx vi).insertIdx cursor v2').length
              rw [List.length_insertIdx _ _ (by rw [herlen]; omega)]
              rw [herlen]
              omega
            · intro j hj
              rw [getq_insertIdx_lt _ _ _ j hj]
              rw [getq_eraseIdx_lt _ vi j (by omega)]
              exact getq_set_ne level vi v2' j (by omega)
            · refine ⟨v2', ?_, hagnew⟩
              exact getq_insertIdx_self _ cursor v2' (by omega)
      | none =>
        cases value with
        | Tag tag =>
          simp only [add_node, hfl, hfm] at hok ⊢
          set s1 : RState :=
            ⟨st.fresh + 1, st.calls ++ [HostCall.createElement tag]⟩ with hs1
          set als := attachAllListeners st.fresh s1 Ls with hals
          set sas := setAllAttributes st.fresh als.1 attrs with hsas
          set r := process_children sas.1 (pushKey keys0 key) st.fresh [] 0
            children with hr
          split at hok
          · simp at hok
          · rename_i hnf
            rw [if_neg hnf]
            have hrok : r.failed = false := by
              revert hnf
              cases r.failed <;> simp
            obtain ⟨hrc, hrcle, -, hrag⟩ :=
              process_children_agrees children sas.1 (pushKey keys0 key)
                st.fresh [] 0 (Nat.zero_le _) hrok
            rw [← hr] at hrc hrcle hrag
            set rt := removeTrailing r.st r.cursor r.level with hrt
            set v2' := VDomNode.mk (VNodeValue.Tag tag) (pushKey keys0 key)
              st.fresh sas.2 als.2 rt.2 with hv2
            refine ⟨rfl, ?_, ?_, ?_⟩
            · show cursor + 1 ≤ (level.insertIdx cursor v2').length
              rw [List.length_insertIdx _ _ hc]
              omega
            · intro j hj
              exact getq_insertIdx_lt _ _ _ j hj
            · refine ⟨v2', getq_insertIdx_self _ cursor v2' hc, ?_⟩
              refine Agrees.mk keys0 (.Tag tag) key attrs lsteps children
                v2' Ls hfl (by rw [hv2]; simp [VDomNode.value])
                (by rw [hv2]; simp [VDomNode.keys]) ?_ ?_ ?_ ?_
              · intro a ha
                rw [hv2]
                simp only [VDomNode.attributes]
                have := setAllAttributes_snd st.fresh als.1 attrs
                rw [← hsas] at this
                rw [this]
                exact ha
              · intro e he
                rw [hv2] at he
                simp only [VDomNode.listeners] at he
                refine ⟨e.2, ?_, lpairEq_refl e.2⟩
                have := attachAllListeners_snd st.fresh s1 Ls
                rw [← hals] at this
                rw [← this]
                exact List.mem_map_of_mem Prod.snd he
              · intro l hl
                rw [hv2]
                simp only [VDomNode.listeners]
                have hsnd := attachAllListeners_snd st.fresh s1 Ls
                rw [← hals] at hsnd
                rw [← hsnd] at hl
                obtain ⟨e, he, hel⟩ := List.mem_map.mp hl
                exact ⟨e, he, by rw [hel]; exact lpairEq_refl l⟩
              · rw [hv2]
                simp only [VDomNode.children]
                rw [hrt, removeTrailing_level r.st r.cursor r.level hrcle, hrc]
                simpa using hrag
        | Text s =>
          simp only [add_node, hfl, hfm] at hok ⊢
          set s1 : RState :=
            ⟨st.fresh + 1, st.calls ++ [HostCall.createText s]⟩ with hs1
          set als := attachAllListeners st.fresh s1 Ls with hals
          set sas := setAllAttributes st.fresh als.1 attrs with hsas
          set r := process_children sas.1 (pushKey keys0 key) st.fresh [] 0
            children with hr
          split at hok
          · simp at hok
          · rename_i hnf
            rw [if_neg hnf]
            have hrok : r.failed = false := by
              revert hnf
              cases r.failed <;> simp
            obtain ⟨hrc, hrcle, -, hrag⟩ :=
              process_children_agrees children sas.1 (pushKey keys0 key)
                st.fresh [] 0 (Nat.zero_le _) hrok
            rw [← hr] at hrc hrcle hrag
            set rt := removeTrailing r.st r.cursor r.level with hrt
            set v2' := VDomNode.mk (VNodeValue.Text s) (pushKey keys0 key)
              st.fresh sas.2 als.2 rt.2 with hv2
            refine ⟨rfl, ?_, ?_, ?_⟩
            · show cursor + 1 ≤ (level.insertIdx cursor v2').length
              rw [List.length_insertIdx _ _ hc]
              omega
            · intro j hj
              exact getq_insertIdx_lt _ _ _ j hj
            · refine ⟨v2', getq_insertIdx_self _ cursor v2' hc, ?_⟩
              refine Agrees.mk keys0 (.Text s) key attrs lsteps children
                v2' Ls hfl (by rw [hv2]; simp [VDomNode.value])
                (by rw [hv2]; simp [VDomNode.keys]) ?_ ?_ ?_ ?_
              · intro a ha
                rw [hv2]
                simp only [VDomNode.attributes]
                have := setAllAttributes_snd st.fresh als.1 attrs
                rw [← hsas] at this
                rw [this]
                exact ha
              · intro e he
                rw [hv2] at he
                simp only [VDomNode.listeners] at he
                refine ⟨e.2, ?_, lpairEq_refl e.2⟩
                have := attachAllListeners_snd st.fresh s1 Ls
                rw [← hals] at this
                rw [← this]
                exact List.mem_map_of_mem Prod.snd he
              · intro l hl
                rw [hv2]
                simp only [VDomNode.listeners]
                have hsnd := attachAllListeners_snd st.fresh s1 Ls
                rw [← hals] at hsnd
                rw [← hsnd] at hl
                obtain ⟨e, he, hel⟩ := List.mem_map.mp hl
                exact ⟨e, he, by rw [hel]; exact lpairEq_refl l⟩
              · rw [hv2]
                simp only [VDomNode.children]
                rw [hrt, removeTrailing_level r.st r.cursor r.level hrcle, hrc]
                simpa using hrag
theorem process_children_agrees (ts : DomForest) : ∀ (st : RState)
    (keys : Keys) (parent : Nat) (level : List VDomNode) (cursor : Nat),
    cursor ≤ level.length →
    (process_children st keys parent level cursor ts).failed = false →
    (process_children st keys parent level cursor ts).cursor =
      cursor + DomForest.length ts ∧
    (process_children st keys parent level cursor ts).cursor ≤
      (process_children st keys parent level cursor ts).level.length ∧
    (∀ j, j < cursor →
      (process_children st keys parent level cursor ts).level[j]? =
        level[j]?) ∧
    AgreesLevel keys ts
      (((process_children st keys parent level cursor ts).level.drop
        cursor).take (DomForest.length ts)) := by
  cases ts with
  | nil =>
    intro st keys parent level cursor hc hok
    refine ⟨by simp [process_children, DomForest.length], ?_, ?_, ?_⟩
    · simpa [process_children] using hc
    · intro j hj; rfl
    · simp only [process_children, DomForest.length, List.take_zero]
      exact AgreesLevel.nil keys
  | cons t ts =>
    intro st keys parent level cursor hc hok
    simp only [process_children] at hok ⊢
    set r1 := add_node st keys parent level cursor t with hr1
    split at hok
    · rename_i hf
      rw [hf] at hok
      simp at hok
    · rename_i hnf
      rw [if_neg hnf]
      have h1ok : r1.failed = false := by
        revert hnf
        cases r1.failed <;> simp
      obtain ⟨h1c, h1le, h1pre, v2, h1get, h1ag⟩ :=
        add_node_agrees t st keys parent level cursor hc h1ok
      rw [← hr1] at h1c h1le h1pre h1get
      obtain ⟨h2c, h2l2, h2pre, h2ag⟩ :=
        process_children_agrees ts r1.st keys parent r1.level r1.cursor
          h1le hok
      refine ⟨?_, ?_, ?_, ?_⟩
      · rw [h2c, h1c]
        simp only [DomForest.length]
        omega
      · exact h2l2
      · intro j hj
        rw [h2pre j (by omega)]
        exact h1pre j hj
      · have hgetf :
            (process_children r1.st keys parent r1.level r1.cursor
              ts).level[cursor]? = some v2 := by
          rw [h2pre cursor (by omega)]
          exact h1get
        simp only [DomForest.length]
        rw [take_slice_cons _ cursor v2 (DomForest.length ts) hgetf]
        refine AgreesLevel.cons keys t ts v2 _ h1ag ?_
        have hcc : cursor + 1 = r1.cursor := by omega
        rw [hcc]
        exact h2ag
end

end Domafic

namespace Domafic

/-! ### Failure aborts the rest of a level -/

theorem process_children_abort_at_failure (pre : DomForest) : ∀ (suf : DomForest)
    (st : RState) (k : Keys) (p : Nat) (lvl : List VDomNode) (c : Nat),
    ((process_children st k p lvl c pre).failed = true →
      process_children st k p lvl c (pre.append (.cons .failStep suf)) =
        process_children st k p lvl c pre) ∧
    ((process_children st k p lvl c pre).failed = false →
      process_children st k p lvl c (pre.append (.cons .failStep suf)) =
        ⟨(process_children st k p lvl c pre).st,
         (process_children st k p lvl c pre).level,
         (process_children st k p lvl c pre).cursor, true⟩) := by
  cases pre with
  | nil =>
    intro suf st k p lvl c
    constructor
    · intro h
      simp [process_children] at h
    · intro _
      simp [DomForest.append, process_children, add_node]
  | cons t pre =>
    intro suf st k p lvl c
    by_cases hf : (add_node st k p lvl c t).failed = true
    · constructor
      · intro _
        simp only [DomForest.append, process_children, if_pos hf]
      · intro hok
        simp only [process_children, if_pos hf] at hok
        rw [hok] at hf
        simp at hf
    · have hibase := process_children_abort_at_failure pre suf
        (add_node st k p lvl c t).st k p (add_node st k p lvl c t).level
        (add_node st k p lvl c t).cursor
      constructor
      · intro h
        simp only [DomForest.append]
        simp only [process_children, if_neg hf] at h ⊢
        exact hibase.1 h
      · intro h
        simp only [DomForest.append]
        simp only [process_children, if_neg hf] at h ⊢
        exact hibase.2 h

/-! ### Listener identity is pointer + event name, never handler value -/

/-- Two attachment entries with the same callback handle whose listeners
agree on pointer and event name (but possibly not on behaviour). -/
def sameShape (e f : Nat × ListenerRef) : Prop :=
  e.1 = f.1 ∧ lpairEq e.2 f.2

theorem lpairEq_symm {a b : ListenerRef} (h : lpairEq a b) : lpairEq b a :=
  ⟨h.1.symm, h.2.symm⟩

theorem lpairEq_trans {a b c : ListenerRef} (h1 : lpairEq a b)
    (h2 : lpairEq b c) : lpairEq a c :=
  ⟨h1.1.trans h2.1, h1.2.trans h2.2⟩

theorem exists_lpair_transfer {news news' : List ListenerRef}
    (h : List.Forall₂ lpairEq news news') (a a' : ListenerRef)
    (haa : lpairEq a a') :
    (∃ n ∈ news, lpairEq a n) ↔ (∃ n' ∈ news', lpairEq a' n') := by
  induction h with
  | nil => simp
  | cons hl hrest ih =>
    constructor
    · rintro ⟨n, hn, han⟩
      rcases List.mem_cons.mp hn with heq | hmem
      · subst heq
        exact ⟨_, by simp, lpairEq_trans (lpairEq_symm haa)
          (lpairEq_trans han hl)⟩
      · obtain ⟨n', hn', h'⟩ := ih.mp ⟨n, hmem, han⟩
        exact ⟨n', by simp [hn'], h'⟩
    · rintro ⟨n', hn', han'⟩
      rcases List.mem_cons.mp hn' with heq | hmem
      · subst heq
        exact ⟨_, by simp, lpairEq_trans haa
          (lpairEq_trans han' (lpairEq_symm hl))⟩
      · obtain ⟨n, hn, h'⟩ := ih.mpr ⟨n', hmem, han'⟩
        exact ⟨n, by simp [hn], h'⟩

theorem exists_pair_transfer {cur cur' : List (Nat × ListenerRef)}
    (h : List.Forall₂ sameShape cur cur') (l l' : ListenerRef)
    (hll : lpairEq l l') :
    (∃ x ∈ cur, lpairEq x.2 l) ↔ (∃ x' ∈ cur', lpairEq x'.2 l') := by
  induction h with
  | nil => simp
  | cons he hrest ih =>
    constructor
    · rintro ⟨x, hx, hxl⟩
      rcases List.mem_cons.mp hx with heq | hmem
      · subst heq
        exact ⟨_, by simp, lpairEq_trans (lpairEq_symm he.2)
          (lpairEq_trans hxl hll)⟩
      · obtain ⟨x', hx', h'⟩ := ih.mp ⟨x, hmem, hxl⟩
        exact ⟨x', by simp [hx'], h'⟩
    · rintro ⟨x', hx', hxl'⟩
      rcases List.mem_cons.mp hx' with heq | hmem
      · subst heq
        exact ⟨_, by simp, lpairEq_trans he.2
          (lpairEq_trans hxl' (lpairEq_symm hll))⟩
      · obtain ⟨x, hx, h'⟩ := ih.mpr ⟨x', hmem, hxl'⟩
        exact ⟨x, by simp [hx], h'⟩

theorem removeExcessListeners_blind (h : Nat)
    {news news' : List ListenerRef} (hn : List.Forall₂ lpairEq news news') :
    ∀ {cur cur' : List (Nat × ListenerRef)},
    List.Forall₂ sameShape cur cur' →
    (removeExcessListeners h news cur).2 =
      (removeExcessListeners h news' cur').2 ∧
    List.Forall₂ sameShape (removeExcessListeners h news cur).1
      (removeExcessListeners h news' cur').1 := by
  intro cur cur' hc
  induction hc with
  | nil => exact ⟨rfl, List.Forall₂.nil⟩
  | cons he hrest ih =>
    rename_i e e' curt curt'
    have hiff : (∃ n ∈ news, lpairEq e.2 n) ↔
        (∃ n' ∈ news', lpairEq e'.2 n') :=
      exists_lpair_transfer hn e.2 e'.2 he.2
    by_cases hp : ∃ n ∈ news, lpairEq e.2 n
    · have hp' : ∃ n' ∈ news', lpairEq e'.2 n' := hiff.mp hp
      simp only [removeExcessListeners, if_pos hp, if_pos hp']
      exact ⟨ih.1, List.Forall₂.cons he ih.2⟩
    · have hp' : ¬∃ n' ∈ news', lpairEq e'.2 n' := fun hx => hp (hiff.mpr hx)
      simp only [removeExcessListeners, if_neg hp, if_neg hp']
      refine ⟨?_, ih.2⟩
      rw [he.1, ih.1]

theorem addNewListeners_blind (h : Nat)
    {news news' : List ListenerRef} (hn : List.Forall₂ lpairEq news news') :
    ∀ (st : RState) {cur cur' : List (Nat × ListenerRef)},
    List.Forall₂ sameShape cur cur' →
    (addNewListeners h st cur news).1 = (addNewListeners h st cur' news').1 ∧
    List.Forall₂ sameShape (addNewListeners h st cur news).2
      (addNewListeners h st cur' news').2 := by
  induction hn with
  | nil => intro st cur cur' hc; exact ⟨rfl, hc⟩
  | cons hl hrest ih =>
    rename_i l l' newst newst'
    intro st cur cur' hc
    have hiff : (∃ x ∈ cur, lpairEq x.2 l) ↔
        (∃ x' ∈ cur', lpairEq x'.2 l') :=
      exists_pair_transfer hc l l' hl
    by_cases hp : ∃ x ∈ cur, lpairEq x.2 l
    · have hp' : ∃ x' ∈ cur', lpairEq x'.2 l' := hiff.mp hp
      simp only [addNewListeners, if_pos hp, if_pos hp']
      exact ih st hc
    · have hp' : ¬∃ x' ∈ cur', lpairEq x'.2 l' := fun hx => hp (hiff.mpr hx)
      simp only [addNewListeners, if_neg hp, if_neg hp']
      rw [hl.2]
      refine ih _ ?_
      exact List.rel_append hc
        (List.Forall₂.cons ⟨rfl, hl⟩ List.Forall₂.nil)

end Domafic

namespace Domafic

/-! ### Claim theorems -/

def c1_render1 : DomTree := DomTree.node (.Tag "div") none [] [] .nil

def c1_render2 : DomTree := DomTree.node (.Text "x") none [] [] .nil

def c1_pass1 : RStep := update_system ⟨1, []⟩ [] c1_render1

def c1_pass2 : RStep := update_system ⟨c1_pass1.st.fresh, []⟩ c1_pass1.level c1_render2

/-- Claim C1 (code bug, evaluation at the failing input): the claim says
that after the last sibling of the root level is processed by the
driver's update cycle, every materialized entry at or past the final
cursor is destroyed.  The code's `update_system` (web_render.rs lines
624-637) performs no trailing removal after `process_all` returns:
rendering a `div` and then re-rendering a text node leaves the second
pass with cursor 1 but two root-level entries, the stale `div` entry
surviving at index 1, and the pass's host trace contains no removal
call for it. -/
theorem C1_root_trailing_not_destroyed :
    c1_pass2.failed = false ∧
    c1_pass2.cursor = 1 ∧
    c1_pass2.level.length = 2 ∧
    (c1_pass2.level[1]?).map VDomNode.value = some (VNodeValue.Tag "div") ∧
    c1_pass2.st.calls =
      [HostCall.createText "x", HostCall.insertChild 0 0 2] := by
  decide

def c2_vnode : VDomNode :=
  VDomNode.mk (.Tag "div") [] 5 [("a", AttrValue.strVal "x")] [] []

def c2_pass : RStep :=
  add_node ⟨6, []⟩ [] 0 [c2_vnode] 0 (DomTree.node (.Tag "div") none [] [] .nil)

/-- Claim C2 counterexample: reusing a matched `div` whose retained
attribute set holds ("a", "x") against a new node with no attributes
deletes the attribute from the retained set, yet the pass performs no
host call at all — in particular no `removeAttribute` on handle 5 — so
the claimed host-side attribute removal does not happen (the
`remove_attribute` call at web_render.rs line 1048 is commented out). -/
theorem C2_counterexample :
    (c2_pass.level[0]?).map VDomNode.attributes = some [] ∧
    c2_pass.st.calls = [] ∧ c2_pass.failed = false := by
  decide

/-- Claim C2 as amended: an attribute in the retained set with no equal
(key, value) counterpart in the new sequence is deleted from the
retained set (the retained set becomes exactly the old set filtered by
membership in the new sequence), but the host attribute-removal
operation is never invoked: no reconciliation step ever appends a
`removeAttribute` host call. -/
theorem C2_no_host_attribute_removal :
    (∀ (news olds : List KeyValue), removeExcessAttributes news olds =
      olds.filter (fun a => decide (a ∈ news))) ∧
    (∀ (st : RState) (k : Keys) (p : Nat) (lvl : List VDomNode) (cur : Nat)
      (t : DomTree) (c : HostCall),
      c ∈ (add_node st k p lvl cur t).st.calls →
      c ∈ st.calls ∨ isRemoveAttribute c = false) :=
  ⟨removeExcessAttributes_filter,
   fun st k p lvl cur t c hc => add_node_noRA t st k p lvl cur c hc⟩

theorem C2_no_host_attribute_removal_witness :
    removeExcessAttributes [] [(("a" : String), AttrValue.strVal "x")] =
      [(("a" : String), AttrValue.strVal "x")].filter
        (fun a => decide (a ∈ ([] : List KeyValue))) ∧
    (HostCall.createElement "div" ∈ (⟨0, []⟩ : RState).calls ∨
      isRemoveAttribute (HostCall.createElement "div") = false) :=
  ⟨C2_no_host_attribute_removal.1 [] [("a", AttrValue.strVal "x")],
   C2_no_host_attribute_removal.2 ⟨0, []⟩ [] 0 [] 0
     (DomTree.node (.Tag "div") none [] [] .nil)
     (HostCall.createElement "div") (by decide)⟩

/-- Claim C3: reconciling a rendered tree against the materialization
produced by immediately previously reconciling that same tree performs
zero host mutation calls at any level (the second pass's host trace,
which records every creation, insertion, move, removal, attribute set,
and listener attach/detach at every level, is empty) and does not
fail. -/
theorem C3_idempotent_reconcile (st0 : RState) (L0 : List VDomNode)
    (t : DomTree) (n : Nat)
    (hok : (update_system st0 L0 t).failed = false) :
    (update_system ⟨n, []⟩ (update_system st0 L0 t).level t).st.calls = [] ∧
    (update_system ⟨n, []⟩ (update_system st0 L0 t).level t).failed = false := by
  unfold update_system at hok ⊢
  obtain ⟨-, -, -, hag⟩ :=
    process_children_agrees (.cons t .nil) st0 [] 0 L0 0 (Nat.zero_le _) hok
  obtain ⟨level2, heq, -⟩ :=
    process_children_noop (.cons t .nil)
      (((process_children st0 [] 0 L0 0 (.cons t .nil)).level.drop 0).take
        (DomForest.length (.cons t .nil)))
      ((process_children st0 [] 0 L0 0 (.cons t .nil)).level.drop
        (DomForest.length (.cons t .nil)))
      [] ⟨n, []⟩ 0
      (process_children st0 [] 0 L0 0 (.cons t .nil)).level 0 hag
      (by rw [List.drop_zero]
          exact (List.take_append_drop _ _).symm)
  rw [heq]
  exact ⟨rfl, rfl⟩

theorem C3_idempotent_reconcile_witness :
    (update_system ⟨1, []⟩ []
      (DomTree.node (.Tag "div") none [] [] .nil)).failed = false ∧
    ((update_system ⟨7, []⟩
        (update_system ⟨1, []⟩ []
          (DomTree.node (.Tag "div") none [] [] .nil)).level
        (DomTree.node (.Tag "div") none [] [] .nil)).st.calls = [] ∧
     (update_system ⟨7, []⟩
        (update_system ⟨1, []⟩ []
          (DomTree.node (.Tag "div") none [] [] .nil)).level
        (DomTree.node (.Tag "div") none [] [] .nil)).failed = false) :=
  ⟨by decide, C3_idempotent_reconcile ⟨1, []⟩ []
    (DomTree.node (.Tag "div") none [] [] .nil) 7 (by decide)⟩

/-- Claim C5: the match scan starting at the cursor selects the first
entry at or past the cursor whose key path and variant/content both
equal the new node's: the selected index is at least the cursor, the
selected entry matches, and every entry strictly between the cursor and
the selected index fails to match (so nothing below the cursor and
nothing past the first equal entry is ever selected). -/
theorem C5_first_match_scan (level : List VDomNode) (cursor : Nat)
    (k : Keys) (val : VNodeValue) (i : Nat) (n : VDomNode)
    (h : findMatch level cursor k val = some (i, n)) :
    cursor ≤ i ∧ level[i]? = some n ∧ n.keys = k ∧ n.value = val ∧
    ∀ j w, cursor ≤ j → j < i → level[j]? = some w →
      ¬(w.keys = k ∧ w.value = val) := by
  obtain ⟨h1, h2, h3, h4, h5⟩ := findMatch_spec level cursor k val i n h
  exact ⟨h1, h2, h3, h4, fun j w hj1 hj2 hw => h5 j hj1 hj2 w hw⟩

def c5_va : VDomNode := VDomNode.mk (.Tag "a") [] 0 [] [] []

def c5_vb : VDomNode := VDomNode.mk (.Tag "b") [] 1 [] [] []

theorem C5_first_match_scan_witness :
    0 ≤ 1 ∧ [c5_va, c5_vb][1]? = some c5_vb ∧ c5_vb.keys = [] ∧
    c5_vb.value = VNodeValue.Tag "b" ∧
    ∀ j w, 0 ≤ j → j < 1 → [c5_va, c5_vb][j]? = some w →
      ¬(w.keys = [] ∧ w.value = VNodeValue.Tag "b") :=
  C5_first_match_scan [c5_va, c5_vb] 0 [] (VNodeValue.Tag "b") 1 c5_vb rfl

/-- Claim C6: a failing traversal step aborts the whole pass
immediately: processing a sibling sequence containing a failing step
yields exactly the state, level, and cursor reached at the failure
point with the failed flag set — independent of everything after the
failing step (no later sibling is processed, the partially updated
level is kept, nothing is rolled back) — and a failed pass makes the
driver's unwrap panic. -/
theorem C6_traversal_failure_aborts :
    (∀ (pre suf : DomForest) (st : RState) (k : Keys) (p : Nat)
      (lvl : List VDomNode) (c : Nat),
      ((process_children st k p lvl c pre).failed = true →
        process_children st k p lvl c (pre.append (.cons .failStep suf)) =
          process_children st k p lvl c pre) ∧
      ((process_children st k p lvl c pre).failed = false →
        process_children st k p lvl c (pre.append (.cons .failStep suf)) =
          ⟨(process_children st k p lvl c pre).st,
           (process_children st k p lvl c pre).level,
           (process_children st k p lvl c pre).cursor, true⟩)) ∧
    (∀ (st : RState) (lvl : List VDomNode) (t : DomTree),
      (update_system st lvl t).failed = true →
      update_system_unwrap st lvl t = none) := by
  refine ⟨process_children_abort_at_failure, ?_⟩
  intro st lvl t h
  unfold update_system_unwrap
  simp [h]

theorem C6_traversal_failure_aborts_witness :
    (process_children ⟨0, []⟩ [] 0 [] 0
        (DomForest.nil.append (.cons .failStep .nil)) =
      ⟨(process_children ⟨0, []⟩ [] 0 [] 0 DomForest.nil).st,
       (process_children ⟨0, []⟩ [] 0 [] 0 DomForest.nil).level,
       (process_children ⟨0, []⟩ [] 0 [] 0 DomForest.nil).cursor, true⟩) ∧
    update_system_unwrap ⟨0, []⟩ [] DomTree.failStep = none :=
  ⟨(C6_traversal_failure_aborts.1 .nil .nil ⟨0, []⟩ [] 0 [] 0).2 (by decide),
   C6_traversal_failure_aborts.2 ⟨0, []⟩ [] DomTree.failStep (by decide)⟩

/-- Claim C7: during reuse, (a) an attached listener is kept iff some
new listener has the same handler reference and event name and is
detached (with a host detach call for its callback handle, in order)
iff no new listener has; (b) every new listener has a matching
attachment afterwards, and the add phase performs no host call iff
every new listener already matches a current attachment by reference
and event name; (c) the diff is blind to handler values: replacing the
new listeners and current attachments by any lists agreeing on handler
reference and event name leaves the emitted host calls unchanged. -/
theorem C7_listener_diff :
    (∀ (h : Nat) (news : List ListenerRef) (cur : List (Nat × ListenerRef)),
      (removeExcessListeners h news cur).1 =
        cur.filter (fun e => decide (∃ n ∈ news, lpairEq e.2 n)) ∧
      (removeExcessListeners h news cur).2 =
        (cur.filter (fun e => !decide (∃ n ∈ news, lpairEq e.2 n))).map
          (fun e => HostCall.detachListener h e.1)) ∧
    (∀ (h : Nat) (st : RState) (cur : List (Nat × ListenerRef))
      (news : List ListenerRef),
      (∀ l ∈ news, ∃ e ∈ (addNewListeners h st cur news).2, lpairEq e.2 l) ∧
      ((addNewListeners h st cur news).1.calls = st.calls ↔
        ∀ l ∈ news, ∃ x ∈ cur, lpairEq x.2 l)) ∧
    (∀ (h : Nat) (news news' : List ListenerRef) (st : RState)
      (cur cur' : List (Nat × ListenerRef)),
      List.Forall₂ lpairEq news news' → List.Forall₂ sameShape cur cur' →
      (removeExcessListeners h news cur).2 =
        (removeExcessListeners h news' cur').2 ∧
      (addNewListeners h st cur news).1 =
        (addNewListeners h st cur' news').1) := by
  refine ⟨?_, ?_, ?_⟩
  · intro h news cur
    exact ⟨removeExcessListeners_kept h news cur,
      removeExcessListeners_calls h news cur⟩
  · intro h st cur news
    exact ⟨addNewListeners_mem h st cur news,
      addNewListeners_noop_iff h st cur news⟩
  · intro h news news' st cur cur' hn hc
    exact ⟨(removeExcessListeners_blind h hn hc).1,
      (addNewListeners_blind h hn st hc).1⟩

theorem C7_listener_diff_witness :
    (∀ l ∈ [ListenerRef.mk 1 "click" 5],
      ∃ e ∈ (addNewListeners 3 ⟨0, []⟩ [] [ListenerRef.mk 1 "click" 5]).2,
        lpairEq e.2 l) ∧
    (removeExcessListeners 3 [ListenerRef.mk 1 "click" 5]
        [(9, ListenerRef.mk 1 "click" 5)]).2 =
      (removeExcessListeners 3 [ListenerRef.mk 1 "click" 8]
        [(9, ListenerRef.mk 1 "click" 6)]).2 ∧
    (addNewListeners 3 ⟨0, []⟩ [] [ListenerRef.mk 1 "click" 5]).1 =
      (addNewListeners 3 ⟨0, []⟩ [] [ListenerRef.mk 1 "click" 8]).1 :=
  ⟨(C7_listener_diff.2.1 3 ⟨0, []⟩ [] [ListenerRef.mk 1 "click" 5]).1,
   (C7_listener_diff.2.2 3 [ListenerRef.mk 1 "click" 5]
      [ListenerRef.mk 1 "click" 8] ⟨0, []⟩ [(9, ListenerRef.mk 1 "click" 5)]
      [(9, ListenerRef.mk 1 "click" 6)]
      (List.Forall₂.cons ⟨rfl, rfl⟩ List.Forall₂.nil)
      (List.Forall₂.cons ⟨rfl, rfl, rfl⟩ List.Forall₂.nil)).1,
   (C7_listener_diff.2.2 3 [ListenerRef.mk 1 "click" 5]
      [ListenerRef.mk 1 "click" 8] ⟨0, []⟩ [] []
      (List.Forall₂.cons ⟨rfl, rfl⟩ List.Forall₂.nil)
      List.Forall₂.nil).2⟩

/-- Claim C8: when the matched entry's index differs from the cursor
(the scan guarantees the index is then above the cursor), the
relocation block emits exactly one host move of the matched entry from
its index to the cursor position, splices the materialized node to
position cursor in the level (entries below the cursor are untouched
and the level's length is preserved); when the matched index equals the
cursor, the block performs no host call and leaves the level
unchanged. -/
theorem C8_relocate_on_index_mismatch :
    (∀ (st : RState) (parent cursor i : Nat) (lvl : List VDomNode)
      (v : VDomNode), cursor < i → i < lvl.length →
      (move_matched st parent cursor i lvl v).1.calls =
        st.calls ++ [HostCall.moveChild parent i cursor] ∧
      (move_matched st parent cursor i lvl v).2[cursor]? = some v ∧
      (∀ j, j < cursor →
        (move_matched st parent cursor i lvl v).2[j]? = lvl[j]?) ∧
      (move_matched st parent cursor i lvl v).2.length = lvl.length) ∧
    (∀ (st : RState) (parent cursor : Nat) (lvl : List VDomNode)
      (v : VDomNode),
      move_matched st parent cursor cursor lvl v = (st, lvl)) := by
  constructor
  · intro st parent cursor i lvl v hci hil
    have hne : cursor ≠ i := by omega
    have herlen : (lvl.eraseIdx i).length = lvl.length - 1 :=
      length_eraseIdx_of_lt lvl i hil
    unfold move_matched
    rw [if_pos hne]
    refine ⟨rfl, ?_, ?_, ?_⟩
    · exact getq_insertIdx_self _ cursor v (by omega)
    · intro j hj
      rw [getq_insertIdx_lt _ _ _ j hj]
      exact getq_eraseIdx_lt lvl i j (by omega)
    · show ((lvl.eraseIdx i).insertIdx cursor v).length = lvl.length
      rw [List.length_insertIdx _ _ (by omega)]
      omega
  · intro st parent cursor lvl v
    unfold move_matched
    simp

def c8_va : VDomNode := VDomNode.mk (.Tag "a") [] 0 [] [] []

def c8_vb : VDomNode := VDomNode.mk (.Tag "b") [] 1 [] [] []

theorem C8_relocate_on_index_mismatch_witness :
    (move_matched ⟨0, []⟩ 9 0 1 [c8_va, c8_vb] c8_vb).1.calls =
      (⟨0, []⟩ : RState).calls ++ [HostCall.moveChild 9 1 0] ∧
    (move_matched ⟨0, []⟩ 9 0 1 [c8_va, c8_vb] c8_vb).2[0]? = some c8_vb ∧
    (∀ j, j < 0 →
      (move_matched ⟨0, []⟩ 9 0 1 [c8_va, c8_vb] c8_vb).2[j]? =
        [c8_va, c8_vb][j]?) ∧
    (move_matched ⟨0, []⟩ 9 0 1 [c8_va, c8_vb] c8_vb).2.length =
      [c8_va, c8_vb].length :=
  C8_relocate_on_index_mismatch.1 ⟨0, []⟩ 9 0 1 [c8_va, c8_vb] c8_vb
    (by decide) (by decide)

/-- Claim C9: invoking the host insert-child or move-child operation
with an index out of range for the host parent's current children is
fatal and not recoverable.  `insert` panics exactly when the index
exceeds the child count (index = count is a valid append position).
`move_child` returns normally exactly when the old index names an
existing child (old < count) and the new index is a valid target
position (new <= count); for any out-of-range index — an old index
with no corresponding child (old >= count) or either index beyond the
length (> count) — the call never returns normally: it either panics
in the Rust wrapper (on the -1 from the JS bounds checks) or dies on
the JS TypeError raised by moving the undefined child read at
`old_index == length`.  In no case does the operation return an error
value or silently clamp the index: the model has no such outcome. -/
theorem C9_out_of_range_is_fatal :
    (∀ count idx : Nat, (WebElement_insert count idx = none ↔ count < idx)) ∧
    (∀ count oldIdx newIdx : Nat,
      (WebElement_move_child count oldIdx newIdx = HostOutcome.ok ↔
        oldIdx < count ∧ newIdx ≤ count)) ∧
    (∀ count oldIdx newIdx : Nat, count ≤ oldIdx ∨ count < newIdx →
      WebElement_move_child count oldIdx newIdx = HostOutcome.panicked ∨
      WebElement_move_child count oldIdx newIdx = HostOutcome.jsError) := by
  refine ⟨?_, ?_, ?_⟩
  · intro count idx
    unfold WebElement_insert
    by_cases hgt : idx > count
    · simp only [if_pos hgt]
      simp [hgt]
    · simp only [if_neg hgt]
      simp
      omega
  · intro count oldIdx newIdx
    unfold WebElement_move_child
    by_cases h1 : oldIdx > count
    · simp only [if_pos h1]
      simp
      omega
    · simp only [if_neg h1]
      by_cases h2 : newIdx > count
      · simp only [if_pos h2]
        simp
        omega
      · simp only [if_neg h2]
        by_cases h3 : oldIdx = count
        · simp only [if_pos h3]
          simp
          omega
        · simp only [if_neg h3]
          simp
          omega
  · intro count oldIdx newIdx hoor
    unfold WebElement_move_child
    by_cases h1 : oldIdx > count
    · simp only [if_pos h1]
      exact Or.inl trivial
    · simp only [if_neg h1]
      by_cases h2 : newIdx > count
      · simp only [if_pos h2]
        exact Or.inl trivial
      · have h3 : oldIdx = count := by omega
        simp only [if_neg h2, if_pos h3]
        exact Or.inr trivial

theorem C9_out_of_range_is_fatal_witness :
    WebElement_move_child 0 0 0 = HostOutcome.panicked ∨
    WebElement_move_child 0 0 0 = HostOutcome.jsError :=
  C9_out_of_range_is_fatal.2.2 0 0 0 (by decide)

/-- Claim C10: a request issued with a timeout of Some 0 passes exactly
the same timeout argument to the JS side as one issued with no timeout
(`unwrap_or(0)`), and in both cases the zero value is the no-timeout
sentinel: `xhr.timeout` is never armed, so a timeout outcome can never
be produced. -/
theorem C10_zero_timeout_is_no_timeout :
    http_timeout_arg (some 0) = http_timeout_arg none ∧
    timeout_armed (some 0) = timeout_armed none ∧
    timeout_armed none = false :=
  ⟨rfl, rfl, rfl⟩

end Domafic
